import Mathlib

/-!
# Verification of the hutch-python namespace-construction core

A shallow embedding of `hutch_python/namespace.py` and the relevant parts of
`hutch_python/utils.py`, with theorems settling the specified properties of
the type-filtered namespace builder (`class_namespace`, with its recursive
composite expander `accumulate`), the metadata tree builder
(`metadata_namespace`), the dynamic type lookup (`find_class` /
`find_object`) and the filename-stripping step of `extract_objs`.

Python objects are modelled by identities (`Nat`); a `World` packages the
object-introspection primitives the code consults (`component_names` /
`getattr`, `.name`, `isinstance(_, Device)`, `__eq__`, `inspect.isfunction`,
`isinstance(_, cls)`, the `.md` metadata record).  Dictionaries and
`IterableNamespace` objects are association lists that preserve insertion
order, matching Python dict / `__dict__` semantics.  The recursive
`accumulate` is given explicit fuel; termination of the Python code is the
theorem that enough fuel always exists.
-/

namespace HutchPython

/-- The kind of a Python object, as far as `inspect.isfunction` is concerned:
a plain function, an instance of some class (recording whether that class
defines `__call__`), or anything else.  `inspect.isfunction` is true exactly
on plain functions; it is false on class instances regardless of
`__call__`. -/
inductive PyKind : Type where
  | function : PyKind
  | classInstance (definesCall : Bool) : PyKind
  | other : PyKind
deriving DecidableEq, Repr

/-- The object-introspection primitives `namespace.py` consults, over a
universe of object identities `0, ..., size - 1`.
`comps o` models iterating `getattr(o, n)` for `n` in `o.component_names`
(in order); `name o` is `o.name`; `isDevice o` is `isinstance(o, Device)`;
`eqv` is Python `__eq__` (with a consistent `__hash__`), used by `set`
membership; `kind` classifies for `inspect.isfunction`; `instOf o t` is
`isinstance(o, t)` for a resolved type identity `t`; `md o` is the object's
`md` metadata record when `hasattr(o, 'md')`, as a field-name lookup that
returns `None` for missing fields. -/
structure World : Type where
  size : Nat
  comps : Nat → List Nat
  name : Nat → String
  isDevice : Nat → Bool
  eqv : Nat → Nat → Bool
  kind : Nat → PyKind
  instOf : Nat → Nat → Bool
  md : Nat → Option (String → Option String)

/-- A scope / pool: Python dict from bound name to object, as an
insertion-ordered association list. -/
abbrev Scope : Type := List (String × Nat)

/-- `n in scope_objs` (Python dict key membership). -/
def hasName (s : Scope) (n : String) : Bool :=
  s.any (fun p => p.1 == n)

/-- `scope_objs[n]` lookup: the binding of name `n`. -/
def lookupScope (s : Scope) (n : String) : Option Nat :=
  (s.find? (fun p => p.1 == n)).map Prod.snd

/-- How many times object `o` occurs as a value of the pool. -/
def countVal (s : Scope) (o : Nat) : Nat :=
  (s.filter (fun p => p.2 == o)).length

/-- The mutable state of one expansion pass: the pool being enriched and the
identity/equality cache (`cache = set()`), most recent insertion first. -/
structure AccState : Type where
  scope : Scope
  cache : List Nat
deriving DecidableEq, Repr

/-- `obj not in cache` negated: Python `set` membership tests each stored
element with an identity shortcut and then `__eq__`
(`stored is obj or stored == obj`). -/
def cacheHit (w : World) (cache : List Nat) (obj : Nat) : Bool :=
  cache.any (fun c => c == obj || w.eqv c obj)

/-- `inspect.isfunction`. -/
def isfunction (w : World) (o : Nat) : Bool :=
  match w.kind o with
  | PyKind.function => true
  | _ => false

/-- The recursive helper of `class_namespace` (namespace.py lines 53-61):

    def accumulate(obj, scope_objs, cache):
        if obj not in cache:
            cache.add(obj)
            for comp_name in getattr(obj, 'component_names', []):
                sub_obj = getattr(obj, comp_name)
                accumulate(sub_obj, scope_objs, cache)
            # Don't accidentally override
            if obj.name not in scope_objs:
                scope_objs[obj.name] = obj

Mutation of `cache` and `scope_objs` becomes state passing; the recursion
gets explicit fuel, `none` meaning the fuel ran out (never the code). -/
def accumulate (w : World) : Nat → Nat → AccState → Option AccState
  | 0, _, _ => none
  | fuel + 1, obj, st =>
    if cacheHit w st.cache obj then some st
    else
      let st1 : AccState := ⟨st.scope, obj :: st.cache⟩
      match (w.comps obj).foldlM (fun s sub => accumulate w fuel sub s) st1 with
      | none => none
      | some st2 =>
        if hasName st2.scope (w.name obj) then some st2
        else some ⟨st2.scope ++ [(w.name obj, obj)], st2.cache⟩

/-- The expansion pass of `class_namespace` (lines 50, 63-65):

    cache = set()
    for name, obj in scope_objs.copy().items():
        if isinstance(obj, Device):
            accumulate(obj, scope_objs, cache)

returning the enriched pool. -/
def expandPass (w : World) (fuel : Nat) (scope : Scope) : Option Scope :=
  (scope.foldlM
      (fun st (p : String × Nat) =>
        if w.isDevice p.2 then accumulate w fuel p.2 st else some st)
      (⟨scope, []⟩ : AccState)).map AccState.scope

/-- A world is valid when every component of an in-range object is itself
in range. -/
def World.Valid (w : World) : Prop :=
  ∀ i < w.size, ∀ j ∈ w.comps i, j < w.size

/-- Cache well-formedness maintained by expansion: no duplicates, all
identities in range. -/
def CacheOK (w : World) (c : List Nat) : Prop :=
  c.Nodup ∧ ∀ x ∈ c, x < w.size

/-- A two-element cyclic composite graph: object `0` (named `a`) lists `1`
as a component, and `1` (named `b`) lists `0`.  Both are Devices; equality
is identity only. -/
def twoCycleWorld : World where
  size := 2
  comps := fun i => match i with
    | 0 => [1]
    | 1 => [0]
    | _ => []
  name := fun i => match i with
    | 0 => "a"
    | 1 => "b"
    | _ => ""
  isDevice := fun _ => true
  eqv := fun _ _ => false
  kind := fun _ => PyKind.other
  instOf := fun _ _ => false
  md := fun _ => none

example : expandPass twoCycleWorld 3 [("a", 0)] = some [("a", 0), ("b", 1)] := by
  decide

/-! ## Invariants of the composite expander -/

/-- What one step of expansion may do to the state: extend the pool at the
end, push identities on the cache, and (consequently) preserve distinctness
of the pool's names. -/
def ExtInv (st st' : AccState) : Prop :=
  (∃ t, st'.scope = st.scope ++ t) ∧ (∃ u, st'.cache = u ++ st.cache) ∧
    ((st.scope.map Prod.fst).Nodup → (st'.scope.map Prod.fst).Nodup)

theorem ExtInv.rfl (st : AccState) : ExtInv st st :=
  ⟨⟨[], by simp⟩, ⟨[], by simp⟩, fun h => h⟩

theorem ExtInv.trans {a b c : AccState} (h1 : ExtInv a b) (h2 : ExtInv b c) :
    ExtInv a c := by
  obtain ⟨⟨t1, ht1⟩, ⟨u1, hu1⟩, hn1⟩ := h1
  obtain ⟨⟨t2, ht2⟩, ⟨u2, hu2⟩, hn2⟩ := h2
  exact ⟨⟨t1 ++ t2, by simp [ht2, ht1]⟩, ⟨u2 ++ u1, by simp [hu2, hu1]⟩,
    fun h => hn2 (hn1 h)⟩

theorem hasName_false_not_mem {s : Scope} {n : String}
    (h : hasName s n = false) : n ∉ s.map Prod.fst := by
  intro hmem
  simp only [List.mem_map] at hmem
  obtain ⟨p, hp, hpn⟩ := hmem
  have := List.any_eq_false.mp h p hp
  simp [hpn] at this

theorem foldlM_ext_inv {α : Type} (step : AccState → α → Option AccState)
    (hstep : ∀ a st st', step st a = some st' → ExtInv st st') :
    ∀ (l : List α) (st st' : AccState),
      List.foldlM step st l = some st' → ExtInv st st' := by
  intro l
  induction l with
  | nil =>
    intro st st' h
    simp only [List.foldlM_nil] at h
    cases h
    exact ExtInv.rfl st
  | cons a l ih =>
    intro st st' h
    simp only [List.foldlM_cons] at h
    rcases hmid : step st a with _ | mid
    · rw [hmid] at h; simp at h
    · rw [hmid] at h
      simp only [Option.bind_eq_bind, Option.some_bind] at h
      exact ExtInv.trans (hstep a st mid hmid) (ih mid st' h)

/-- `accumulate` only enriches the pool: existing bindings stay in place,
new bindings are appended, the cache only grows, distinct names stay
distinct. -/
theorem accumulate_inv (w : World) :
    ∀ (fuel obj : Nat) (st st' : AccState),
      accumulate w fuel obj st = some st' → ExtInv st st' := by
  intro fuel
  induction fuel with
  | zero => intro obj st st' h; simp [accumulate] at h
  | succ fuel ih =>
    intro obj st st' h
    rw [accumulate] at h
    by_cases hhit : cacheHit w st.cache obj
    · rw [if_pos hhit] at h
      cases h
      exact ExtInv.rfl st
    · rw [if_neg hhit] at h
      rcases hfold : (w.comps obj).foldlM
          (fun s sub => accumulate w fuel sub s) ⟨st.scope, obj :: st.cache⟩ with _ | st2
      · simp only [hfold] at h; cases h
      · simp only [hfold] at h
        have h1 : ExtInv st ⟨st.scope, obj :: st.cache⟩ :=
          ⟨⟨[], by simp⟩, ⟨[obj], by simp⟩, fun hn => hn⟩
        have h2 : ExtInv ⟨st.scope, obj :: st.cache⟩ st2 :=
          foldlM_ext_inv _ (fun a s s' hs => ih a s s' hs) _ _ _ hfold
        by_cases hnm : hasName st2.scope (w.name obj)
        · rw [if_pos hnm] at h
          cases h
          exact ExtInv.trans h1 h2
        · rw [if_neg hnm] at h
          cases h
          refine ExtInv.trans h1 (ExtInv.trans h2 ?_)
          refine ⟨⟨[(w.name obj, obj)], by simp⟩, ⟨[], by simp⟩, fun hn => ?_⟩
          have hfresh := hasName_false_not_mem (Bool.not_eq_true _ ▸ hnm)
          simp only [List.map_append, List.map_cons, List.map_nil]
          simp [List.nodup_append, hn, hfresh]

/-- The whole expansion pass only enriches the pool. -/
theorem expandPass_inv (w : World) (fuel : Nat) (scope scope' : Scope)
    (h : expandPass w fuel scope = some scope') :
    (∃ t, scope' = scope ++ t) ∧
      ((scope.map Prod.fst).Nodup → (scope'.map Prod.fst).Nodup) := by
  unfold expandPass at h
  rcases hfold : scope.foldlM
      (fun st (p : String × Nat) =>
        if w.isDevice p.2 then accumulate w fuel p.2 st else some st)
      (⟨scope, []⟩ : AccState) with _ | stf
  · rw [hfold] at h; cases h
  · rw [hfold] at h
    cases h
    have hinv : ExtInv ⟨scope, []⟩ stf := by
      refine foldlM_ext_inv _ (fun p st st' hs => ?_) _ _ _ hfold
      by_cases hd : w.isDevice p.2
      · rw [if_pos hd] at hs
        exact accumulate_inv w fuel p.2 st st' hs
      · rw [if_neg hd] at hs
        cases hs
        exact ExtInv.rfl st
    exact ⟨hinv.1, hinv.2.2⟩

/-! ## Termination: enough fuel always exists -/

theorem length_le_of_nodup_lt (l : List Nat) (n : Nat)
    (hd : l.Nodup) (hlt : ∀ x ∈ l, x < n) : l.length ≤ n := by
  have hsub : l.toFinset ⊆ Finset.range n := by
    intro x hx
    simp only [List.mem_toFinset] at hx
    simpa using hlt x hx
  have := Finset.card_le_card hsub
  rwa [List.toFinset_card_of_nodup hd, Finset.card_range] at this

theorem cacheHit_false_not_mem {w : World} {c : List Nat} {obj : Nat}
    (h : cacheHit w c obj = false) : obj ∉ c := by
  intro hmem
  have := List.any_eq_false.mp h obj hmem
  simp at this

/-- A generic fuel-indexed fold over the expansion state: if every step
succeeds on well-formed caches below the measure and only grows the cache,
so does the whole fold. -/
theorem foldlM_ok {α : Type} (w : World) (fuel : Nat)
    (step : AccState → α → Option AccState) :
    ∀ (l : List α),
      (∀ a ∈ l, ∀ st : AccState, CacheOK w st.cache →
        w.size - st.cache.length < fuel →
        ∃ st', step st a = some st' ∧ CacheOK w st'.cache ∧
          ∃ u, st'.cache = u ++ st.cache) →
      ∀ st : AccState, CacheOK w st.cache → w.size - st.cache.length < fuel →
        ∃ st', List.foldlM step st l = some st' ∧ CacheOK w st'.cache ∧
          ∃ u, st'.cache = u ++ st.cache := by
  intro l
  induction l with
  | nil =>
    intro _ st hok hm
    exact ⟨st, by simp [List.foldlM_nil], hok, ⟨[], by simp⟩⟩
  | cons a l ih =>
    intro hstep st hok hm
    obtain ⟨mid, hmid, hokm, u1, hu1⟩ :=
      hstep a (List.mem_cons_self a l) st hok hm
    have hmm : w.size - mid.cache.length < fuel := by
      have : st.cache.length ≤ mid.cache.length := by
        rw [hu1]; simp
      omega
    obtain ⟨st', hst', hok', u2, hu2⟩ :=
      ih (fun b hb => hstep b (List.mem_cons_of_mem a hb)) mid hokm hmm
    refine ⟨st', ?_, hok', ⟨u2 ++ u1, by simp [hu2, hu1]⟩⟩
    simp only [List.foldlM_cons, hmid, Option.bind_eq_bind, Option.some_bind]
    exact hst'

/-- With fuel below which the remaining-identity measure fits, `accumulate`
never runs out: the Python recursion terminates. -/
theorem accumulate_ok (w : World) (hV : w.Valid) :
    ∀ (fuel obj : Nat) (st : AccState), obj < w.size → CacheOK w st.cache →
      w.size - st.cache.length < fuel →
      ∃ st', accumulate w fuel obj st = some st' ∧ CacheOK w st'.cache := by
  intro fuel
  induction fuel with
  | zero => intro obj st _ _ hm; omega
  | succ fuel ih =>
    intro obj st hobj hok hm
    rw [accumulate]
    by_cases hhit : cacheHit w st.cache obj
    · exact ⟨st, by rw [if_pos hhit], hok⟩
    · rw [if_neg hhit]
      have hnotmem : obj ∉ st.cache :=
        cacheHit_false_not_mem (Bool.not_eq_true _ ▸ hhit)
      have hok1 : CacheOK w (obj :: st.cache) := by
        refine ⟨List.nodup_cons.mpr ⟨hnotmem, hok.1⟩, fun x hx => ?_⟩
        rcases List.mem_cons.mp hx with hx | hx
        · exact hx ▸ hobj
        · exact hok.2 x hx
      have hlen1 : (obj :: st.cache).length ≤ w.size :=
        length_le_of_nodup_lt _ _ hok1.1 hok1.2
      have hm1 : w.size - (obj :: st.cache).length < fuel := by
        simp only [List.length_cons] at hlen1 ⊢
        omega
      obtain ⟨st2, hfold, hok2, _⟩ :=
        foldlM_ok w fuel (fun s sub => accumulate w fuel sub s) (w.comps obj)
          (fun sub hsub s hoks hms => by
            obtain ⟨s', hs', hoks'⟩ := ih sub s (hV obj hobj sub hsub) hoks hms
            obtain ⟨_, ⟨u, hu⟩, _⟩ := accumulate_inv w fuel sub s s' hs'
            exact ⟨s', hs', hoks', ⟨u, hu⟩⟩)
          ⟨st.scope, obj :: st.cache⟩ hok1 hm1
      simp only [hfold]
      by_cases hnm : hasName st2.scope (w.name obj)
      · exact ⟨st2, by rw [if_pos hnm], hok2⟩
      · exact ⟨⟨st2.scope ++ [(w.name obj, obj)], st2.cache⟩,
          by rw [if_neg hnm], hok2⟩

/-- The full expansion pass succeeds with fuel `size + 1`. -/
theorem expandPass_ok (w : World) (hV : w.Valid) (scope : Scope)
    (hs : ∀ p ∈ scope, p.2 < w.size) :
    ∃ scope', expandPass w (w.size + 1) scope = some scope' := by
  have hok0 : CacheOK w ([] : List Nat) := ⟨List.nodup_nil, by simp⟩
  have hm0 : w.size - ([] : List Nat).length < w.size + 1 := by simp
  obtain ⟨stf, hfold, _, _⟩ :=
    foldlM_ok w (w.size + 1)
      (fun st (p : String × Nat) =>
        if w.isDevice p.2 then accumulate w (w.size + 1) p.2 st else some st)
      scope
      (fun p hp st hok hm => by
        by_cases hd : w.isDevice p.2
        · obtain ⟨st', hst', hok'⟩ :=
            accumulate_ok w hV (w.size + 1) p.2 st (hs p hp) hok hm
          obtain ⟨_, ⟨u, hu⟩, _⟩ := accumulate_inv w (w.size + 1) p.2 st st' hst'
          exact ⟨st', by simp [hd, hst'], hok', ⟨u, hu⟩⟩
        · exact ⟨st, by simp [hd], hok, ⟨[], by simp⟩⟩)
      ⟨scope, []⟩ hok0 hm0
  exact ⟨stf.scope, by simp [expandPass, hfold]⟩

/-! ## The type-filtered namespace builder `class_namespace` -/

/-- Modelled from the spec: `IterableNamespace` lives in the repository's
utils module, which is not included under src.  The spec describes it as an
attribute-accessible container iterating its values in the order they were
set, with a single underlying store.  Here: an insertion-ordered association
list; setting an existing attribute replaces its value in place. -/
abbrev IterableNamespace : Type := List (String × Nat)

/-- `setattr(ns, n, v)`: replace in place when the attribute exists,
append otherwise. -/
def setAttrNS (ns : IterableNamespace) (n : String) (v : Nat) :
    IterableNamespace :=
  if ns.any (fun p => p.1 == n) then
    ns.map (fun p => if p.1 == n then (n, v) else p)
  else ns ++ [(n, v)]

/-- One logger call, by severity (messages recorded only for errors). -/
inductive LogMsg : Type where
  | debug : LogMsg
  | error (msg : String) : LogMsg
deriving DecidableEq, Repr

def errorCount (log : List LogMsg) : Nat :=
  (log.filter (fun m => match m with
    | LogMsg.error _ => true
    | _ => false)).length

/-- The `cls` argument of `class_namespace`: a string, or a type identity
(`isinstance(cls, str)` distinguishes them). -/
inductive ClsSpec : Type where
  | str (s : String) : ClsSpec
  | typ (t : Nat) : ClsSpec

/-- The filter in force after string resolution: the literal `'function'`
marker, or a resolved type. -/
inductive Filt : Type where
  | function : Filt
  | typ (t : Nat) : Filt

/-- The include decision of namespace.py lines 68-73: `isfunction(obj)`
under the `'function'` marker, `isinstance(obj, cls)` otherwise. -/
def includeTest (w : World) (f : Filt) (p : String × Nat) : Bool :=
  match f with
  | Filt.function => isfunction w p.2
  | Filt.typ t => w.instOf p.2 t

/-- Lines 67-76: `setattr(class_space, name, obj)` for each matching pair of
the (already expanded) pool. -/
def filterLoop (w : World) (f : Filt) (scope : Scope)
    (acc : IterableNamespace) : IterableNamespace :=
  scope.foldl
    (fun ns p => if includeTest w f p then setAttrNS ns p.1 p.2 else ns) acc

/-- Expansion followed by the filter loop, emitting one debug log per
included object (line 76). -/
def runBuild (w : World) (f : Filt) (scope : Scope) (log0 : List LogMsg) :
    Option (IterableNamespace × List LogMsg) :=
  match expandPass w (w.size + 1) scope with
  | none => none
  | some scope2 =>
    some (filterLoop w f scope2 [],
      log0 ++ (scope2.filter (includeTest w f)).map (fun _ => LogMsg.debug))

/-- `class_namespace` (namespace.py lines 15-78).  The scope is the
already-resolved pool (`extract_objs` is the external Scope Resolver
collaborator); `resolver` is the dynamic type lookup (`find_class`), with
`none` meaning it raised.  On a failed string resolution the error is
logged, a second record goes to the debug log, and the (still empty)
namespace is returned without expansion or filtering. -/
def class_namespace (w : World) (resolver : String → Option Nat)
    (cls : ClsSpec) (scope : Scope) :
    Option (IterableNamespace × List LogMsg) :=
  let log0 := [LogMsg.debug]
  match cls with
  | ClsSpec.str s =>
    if s == "function" then runBuild w Filt.function scope log0
    else
      match resolver s with
      | none =>
        some ([], log0 ++
          [LogMsg.error ("Type " ++ s ++ " could not be loaded"), LogMsg.debug])
      | some t => runBuild w (Filt.typ t) scope log0
  | ClsSpec.typ t => runBuild w (Filt.typ t) scope log0

theorem setAttrNS_fresh (ns : IterableNamespace) (n : String) (v : Nat)
    (h : n ∉ ns.map Prod.fst) : setAttrNS ns n v = ns ++ [(n, v)] := by
  unfold setAttrNS
  rw [if_neg]
  simp only [List.any_eq_true, not_exists, not_and]
  intro p hp
  intro hpn
  exact h (List.mem_map.mpr ⟨p, hp, by simpa using hpn⟩)

/-- With pairwise-distinct names disjoint from the accumulator, the filter
loop is exactly `List.filter` appended to the accumulator. -/
theorem filterLoop_eq_filter (w : World) (f : Filt) :
    ∀ (l : Scope) (acc : IterableNamespace),
      (∀ n ∈ l.map Prod.fst, n ∉ acc.map Prod.fst) →
      (l.map Prod.fst).Nodup →
      filterLoop w f l acc = acc ++ l.filter (includeTest w f) := by
  intro l
  induction l with
  | nil => intro acc _ _; simp [filterLoop]
  | cons p l ih =>
    intro acc hfresh hnd
    simp only [List.map_cons, List.nodup_cons] at hnd
    by_cases hinc : includeTest w f p
    · have hp1 : p.1 ∉ acc.map Prod.fst :=
        hfresh p.1 (by simp)
      have hstep : setAttrNS acc p.1 p.2 = acc ++ [p] := by
        rw [setAttrNS_fresh acc p.1 p.2 hp1]
      have hrest : ∀ n ∈ l.map Prod.fst, n ∉ (acc ++ [p]).map Prod.fst := by
        intro n hn
        simp only [List.map_append, List.mem_append, List.map_cons,
          List.map_nil, List.mem_singleton]
        rintro (hmem | hmem)
        · exact hfresh n (by simp [hn]) hmem
        · exact hnd.1 (hmem ▸ hn)
      calc filterLoop w f (p :: l) acc
          = filterLoop w f l (acc ++ [p]) := by
            simp [filterLoop, hinc, hstep]
        _ = (acc ++ [p]) ++ l.filter (includeTest w f) := ih _ hrest hnd.2
        _ = acc ++ (p :: l).filter (includeTest w f) := by
            simp [List.filter_cons, hinc]
    · have : filterLoop w f (p :: l) acc = filterLoop w f l acc := by
        simp [filterLoop, hinc]
      rw [this, ih _ (fun n hn => hfresh n (by simp [hn])) hnd.2]
      simp [List.filter_cons, hinc]

theorem lookupScope_append (s t : Scope) (n : String) (v : Nat)
    (h : lookupScope s n = some v) : lookupScope (s ++ t) n = some v := by
  unfold lookupScope at h ⊢
  induction s with
  | nil => simp [List.find?] at h
  | cons p s ih =>
    by_cases hp : (p.1 == n) = true
    · rw [List.find?_cons_of_pos s hp] at h
      rw [List.cons_append, List.find?_cons_of_pos (s ++ t) hp]
      exact h
    · rw [List.find?_cons_of_neg s hp] at h
      rw [List.cons_append, List.find?_cons_of_neg (s ++ t) hp]
      exact ih h

/-! ## The metadata tree builder `metadata_namespace` -/

/-- Python `c in s` for a character. -/
def pyContains (s : String) (c : Char) : Bool :=
  s.toList.contains c

/-- Python `str.lower`, character by character. -/
def pyLower (s : String) : String :=
  String.mk (s.toList.map Char.toLower)

/-- Python `str.split(sep)` for a one-character separator, on the character
list: splitting an empty string yields `[""]`, adjacent separators yield
empty segments. -/
def splitChar (sep : Char) : List Char → List (List Char)
  | [] => [[]]
  | c :: rest =>
    let r := splitChar sep rest
    if c = sep then [] :: r
    else
      match r with
      | [] => [[c]]
      | g :: gs => (c :: g) :: gs

/-- Python `name.split(sep)`. -/
def pySplit (s : String) (sep : Char) : List String :=
  (splitChar sep s.toList).map (fun g => String.mk g)

/-- Modelled from the spec: `strip_prefix` lives in the repository's utils
module, which is not included under src.  Per the spec it strips the
already-consumed key's textual prefix from the remaining candidate leaf
name — together with the following separator character, as the spec's
name-split example fixes (`tst_det_1`, consuming `tst` then `det`, leaves
leaf name `1`) — and passes the name through unstripped when the key is not
a literal prefix. -/
def strip_prefix (name key : String) : String :=
  if key.toList.isPrefixOf name.toList then
    String.mk (name.toList.drop (key.toList.length + 1))
  else name

/-- A tree of nested `IterableNamespace`s: each attribute holds either an
original object (`Sum.inl`) or a nested namespace node (`Sum.inr`). -/
inductive NSTree : Type where
  | mk : List (String × (Nat ⊕ NSTree)) → NSTree

def NSTree.entries : NSTree → List (String × (Nat ⊕ NSTree))
  | NSTree.mk l => l

/-- `getattr(t, k)`. -/
def NSTree.getA (t : NSTree) (k : String) : Option (Nat ⊕ NSTree) :=
  (t.entries.find? (fun p => p.1 == k)).map Prod.snd

/-- `setattr(t, k, v)`: replace in place when present, append otherwise. -/
def NSTree.setA (t : NSTree) (k : String) (v : Nat ⊕ NSTree) : NSTree :=
  NSTree.mk
    (if t.entries.any (fun p => p.1 == k) then
      t.entries.map (fun p => if p.1 == k then (k, v) else p)
    else t.entries ++ [(k, v)])

/-- Follow a key path of internal nodes, then read `leaf` as an object. -/
def NSTree.getLeaf : NSTree → List String → String → Option Nat
  | t, [], leaf =>
    match t.getA leaf with
    | some (Sum.inl o) => some o
    | _ => none
  | t, k :: rest, leaf =>
    match t.getA k with
    | some (Sum.inr sub) => sub.getLeaf rest leaf
    | _ => none

/-- The key-walking loop of `metadata_namespace` (lines 127-135): consume
keys until the first `None`, stripping each consumed key's prefix from the
candidate leaf name and creating missing intermediate nodes, then bind the
object under the remaining name at the node reached.  Yields `none` when
the walk would descend through an attribute holding a plain object (Python
would then set attributes on an arbitrary object). -/
def insertWalk : NSTree → List (Option String) → String → Nat → Option NSTree
  | t, [], name, obj => some (t.setA name (Sum.inl obj))
  | t, none :: _, name, obj => some (t.setA name (Sum.inl obj))
  | t, some key :: rest, name, obj =>
    let name1 := strip_prefix name key
    match t.getA key with
    | some (Sum.inl _) => none
    | some (Sum.inr sub) =>
      (insertWalk sub rest name1 obj).map (fun s => t.setA key (Sum.inr s))
    | none =>
      (insertWalk (NSTree.mk []) rest name1 obj).map
        (fun s => t.setA key (Sum.inr s))

/-- The leaf name the walk binds under: the original name with each consumed
key's prefix stripped in turn. -/
def stripAll : String → List (Option String) → String
  | name, [] => name
  | name, none :: _ => name
  | name, some k :: rest => stripAll ( strip_prefix name k) rest

/-- The internal-node path the walk descends: the keys before the first
`None`. -/
def consumedPath (keys : List (Option String)) : List String :=
  (keys.takeWhile Option.isSome).map (fun k => k.getD "")

/-- The normalized key sequence of a metadata-bearing object: one metadata
value per requested field, strings lowercased. -/
def mdKeys (mdrec : String → Option String) (md : List String) :
    List (Option String) :=
  (md.map mdrec).map (fun k => k.map pyLower)

/-- `metadata_namespace` (namespace.py lines 81-136) over the resolved
scope.  Metadata values are modelled as optional strings; a record of
`none` models `not hasattr(obj, 'md')`.  The result is `none` exactly where
the Python code would raise: indexing `raw_keys[0]` of an empty key list
(possible only for an empty fields list), or the walk descending through a
plain object. -/
def metadata_namespace (w : World) (md : List String) (scope : Scope) :
    Option NSTree :=
  scope.foldlM
    (fun tree (p : String × Nat) =>
      let name := p.1
      let obj := p.2
      let rawKeys? : Option (List (Option String)) :=
        match w.md obj with
        | some mdrec => some (md.map mdrec)
        | none =>
          if pyContains name '_' then
            some (((pySplit name '_').take md.length).map some)
          else none
      match rawKeys? with
      | none => some tree
      | some [] => none
      | some (none :: _) => some tree
      | some (k0 :: ks) =>
        insertWalk tree ((k0 :: ks).map (fun k => k.map pyLower)) name obj)
    (NSTree.mk [])

/-- Walking any key sequence into an empty node always succeeds and binds
the object under the stripped leaf name at the consumed path. -/
theorem insertWalk_empty :
    ∀ (keys : List (Option String)) (name : String) (obj : Nat),
      ∃ t, insertWalk (NSTree.mk []) keys name obj = some t ∧
        t.getLeaf (consumedPath keys) (stripAll name keys) = some obj := by
  intro keys
  induction keys with
  | nil =>
    intro name obj
    refine ⟨NSTree.mk [(name, Sum.inl obj)], rfl, ?_⟩
    simp [consumedPath, stripAll, NSTree.getLeaf, NSTree.getA, NSTree.entries,
      List.find?]
  | cons k rest ih =>
    intro name obj
    cases k with
    | none =>
      refine ⟨NSTree.mk [(name, Sum.inl obj)], rfl, ?_⟩
      simp [consumedPath, stripAll, NSTree.getLeaf, NSTree.getA,
        NSTree.entries, List.find?]
    | some key =>
      obtain ⟨s, hs, hleaf⟩ := ih ( strip_prefix name key) obj
      refine ⟨NSTree.mk [(key, Sum.inr s)], ?_, ?_⟩
      · show (insertWalk (NSTree.mk []) rest ( strip_prefix name key)
            obj).map (fun s => (NSTree.mk []).setA key (Sum.inr s)) =
          some (NSTree.mk [(key, Sum.inr s)])
        rw [hs]
        rfl
      · show NSTree.getLeaf _ (consumedPath (some key :: rest))
            (stripAll name (some key :: rest)) = some obj
        have hpath : consumedPath (some key :: rest) =
            key :: consumedPath rest := by
          simp [consumedPath, List.takeWhile]
        have hstrip : stripAll name (some key :: rest) =
            stripAll ( strip_prefix name key) rest := rfl
        rw [hpath, hstrip]
        show (match (NSTree.mk [(key, Sum.inr s)]).getA key with
          | some (Sum.inr sub) =>
            sub.getLeaf (consumedPath rest)
              (stripAll ( strip_prefix name key) rest)
          | _ => none) = some obj
        have : (NSTree.mk [(key, Sum.inr s)]).getA key = some (Sum.inr s) := by
          simp [NSTree.getA, NSTree.entries, List.find?]
        rw [this]
        exact hleaf

/-! ## Dynamic type lookup `find_class` / `find_object` -/

/-- `find_object` (utils.py lines 60-78), over external `importlib` and
`getattr` collaborators: split on dots, import the dotted prefix, read the
final attribute. -/
def find_object {μ α : Type} (importMod : String → μ)
    (getAttr : μ → String → α) (obj_path : String) : α :=
  let parts := pySplit obj_path '.'
  let module_path := String.intercalate "." parts.dropLast
  getAttr (importMod module_path) (parts.getLastD "")

/-- `find_class` (utils.py lines 81-98): a path containing a dot goes
through `find_object`; anything else is handed to `eval`, whose value —
type or not — is returned unchanged (`evalStr` is the external evaluation
collaborator, of arbitrary result type). -/
def find_class {μ α : Type} (evalStr : String → α) (importMod : String → μ)
    (getAttr : μ → String → α) (class_path : String) : α :=
  if pyContains class_path '.' then find_object importMod getAttr class_path
  else evalStr class_path

/-! ## The filename-stripping step of `extract_objs` -/

/-- Python `str.strip(chars)`: remove every leading and every trailing
character drawn from `chars`, treated as a set. -/
def pyStrip (s : String) (chars : String) : String :=
  let mem := fun c => chars.toList.contains c
  let noTrail := (s.toList.reverse.dropWhile mem).reverse
  String.mk (noTrail.dropWhile mem)

/-- utils.py line 30: `module_name = module_name.strip('.py')`. -/
def stripModuleName (module_name : String) : String :=
  pyStrip module_name ".py"

/-! ## Concrete worlds used to instantiate and refute claims -/

/-- A metadata record: `beamline = "MFX"`, nothing else. -/
def mfxRec : String → Option String :=
  fun f => if f == "beamline" then some "MFX" else none

/-- A world whose object `5` carries the `mfxRec` metadata record; no
composites. -/
def mdStripWorld : World where
  size := 0
  comps := fun _ => []
  name := fun _ => ""
  isDevice := fun _ => false
  eqv := fun _ _ => false
  kind := fun _ => PyKind.other
  instOf := fun _ _ => false
  md := fun i => if i == 5 then some mfxRec else none

/-- A world where device `0` has components `1` and `2`: distinct
identities that compare equal under `__eq__`. -/
def eqPairWorld : World where
  size := 3
  comps := fun i => match i with
    | 0 => [1, 2]
    | _ => []
  name := fun i => match i with
    | 0 => "d"
    | 1 => "n1"
    | 2 => "n2"
    | _ => ""
  isDevice := fun i => i == 0
  eqv := fun c o => (c == 1 && o == 2) || (c == 2 && o == 1)
  kind := fun _ => PyKind.other
  instOf := fun _ _ => false
  md := fun _ => none

/-- A world with a plain function (object `10`) and an instance of a class
that defines `__call__` (object `11`); no composites. -/
def funcWorld : World where
  size := 0
  comps := fun _ => []
  name := fun _ => ""
  isDevice := fun _ => false
  eqv := fun _ _ => false
  kind := fun i =>
    if i == 10 then PyKind.function
    else if i == 11 then PyKind.classInstance true
    else PyKind.other
  instOf := fun _ _ => false
  md := fun _ => none

/-! ## The claims -/

/-- Claim C1: composite expansion terminates on every valid object graph,
cyclic ones included, because the cache is consulted before recursing
(fuel `size + 1` always suffices); and on the concrete two-object cycle
(`a` lists `b` as a component, `b` lists `a`) each of the two objects
appears exactly once in the resulting pool. -/
theorem c1_cyclic_expansion_terminates :
    (∀ (w : World) (scope : Scope), w.Valid → (∀ p ∈ scope, p.2 < w.size) →
      ∃ scope', expandPass w (w.size + 1) scope = some scope') ∧
    (expandPass twoCycleWorld 3 [("a", 0)]).map
      (fun r => (countVal r 0, countVal r 1)) = some (1, 1) :=
  ⟨fun w scope hV hs => expandPass_ok w hV scope hs, by decide⟩

theorem c1_witness :
    twoCycleWorld.Valid ∧
    (∀ p ∈ ([("a", 0)] : Scope), p.2 < twoCycleWorld.size) ∧
    ∃ scope', expandPass twoCycleWorld (twoCycleWorld.size + 1) [("a", 0)] =
      some scope' := by
  have hV : twoCycleWorld.Valid := by unfold World.Valid; decide
  have hs : ∀ p ∈ ([("a", 0)] : Scope), p.2 < twoCycleWorld.size := by decide
  exact ⟨hV, hs,
    c1_cyclic_expansion_terminates.1 twoCycleWorld [("a", 0)] hV hs⟩

/-- Claim C2: expansion is a pure enrichment of the pool — every name bound
before expansion is bound to the same object afterwards; a discovered
sub-component never overwrites an existing binding and nothing is
removed. -/
theorem c2_expansion_preserves_bindings (w : World) (fuel : Nat)
    (scope scope' : Scope) (h : expandPass w fuel scope = some scope') :
    ∀ n v, lookupScope scope n = some v → lookupScope scope' n = some v := by
  obtain ⟨⟨t, ht⟩, _⟩ := expandPass_inv w fuel scope scope' h
  intro n v hnv
  rw [ht]
  exact lookupScope_append scope t n v hnv

theorem c2_witness :
    expandPass twoCycleWorld 3 [("a", 0)] = some [("a", 0), ("b", 1)] ∧
    lookupScope [("a", 0)] "a" = some 0 ∧
    lookupScope [("a", 0), ("b", 1)] "a" = some 0 :=
  ⟨by decide, by decide,
    c2_expansion_preserves_bindings twoCycleWorld 3 [("a", 0)]
      [("a", 0), ("b", 1)] (by decide) "a" 0 (by decide)⟩

/-- Claim C3: a type given as a string other than `'function'` that the
dynamic type lookup cannot resolve makes `class_namespace` return the
still-empty namespace without raising, logging exactly one error (plus
debug records). -/
theorem c3_unresolvable_type_name (w : World) (resolver : String → Option Nat)
    (s : String) (scope : Scope) (hs : s ≠ "function")
    (hr : resolver s = none) :
    class_namespace w resolver (ClsSpec.str s) scope =
      some ([], [LogMsg.debug,
        LogMsg.error ("Type " ++ s ++ " could not be loaded"), LogMsg.debug]) ∧
    errorCount [LogMsg.debug,
      LogMsg.error ("Type " ++ s ++ " could not be loaded"), LogMsg.debug] = 1 := by
  constructor
  · unfold class_namespace
    simp [hs, hr]
  · rfl

theorem c3_witness :
    ("nope" : String) ≠ "function" ∧
    class_namespace twoCycleWorld (fun _ => none) (ClsSpec.str "nope") [] =
      some ([], [LogMsg.debug,
        LogMsg.error ("Type " ++ "nope" ++ " could not be loaded"),
        LogMsg.debug]) :=
  ⟨by decide,
    (c3_unresolvable_type_name twoCycleWorld (fun _ => none) "nope" []
      (by decide) rfl).1⟩

/-- Claim C5: with the `'function'` marker, the built namespace is exactly
the plain functions of the expanded pool: every plain function is included,
and every class instance is excluded — even an instance of a class defining
`__call__` (membership depends only on `inspect.isfunction`). -/
theorem c5_function_marker_filters (w : World) (resolver : String → Option Nat)
    (scope scope2 : Scope) (ns : IterableNamespace) (log : List LogMsg)
    (hnd : (scope.map Prod.fst).Nodup)
    (hexp : expandPass w (w.size + 1) scope = some scope2)
    (h : class_namespace w resolver (ClsSpec.str "function") scope =
      some (ns, log)) :
    ns = scope2.filter (fun p => isfunction w p.2) ∧
    (∀ nm o, (nm, o) ∈ scope2 → isfunction w o = true → (nm, o) ∈ ns) ∧
    (∀ nm o b, (nm, o) ∈ scope2 → w.kind o = PyKind.classInstance b →
      (nm, o) ∉ ns) := by
  have hns : ns = filterLoop w Filt.function scope2 [] := by
    unfold class_namespace runBuild at h
    simp only [beq_self_eq_true, if_true, hexp] at h
    simp only [Option.some.injEq, Prod.mk.injEq] at h
    exact h.1.symm
  obtain ⟨_, hndp⟩ := expandPass_inv w (w.size + 1) scope scope2 hexp
  have hfl : ns = scope2.filter (fun p => isfunction w p.2) := by
    rw [hns, filterLoop_eq_filter w Filt.function scope2 [] (by simp)
      (hndp hnd)]
    simp only [List.nil_append]
    rfl
  refine ⟨hfl, ?_, ?_⟩
  · intro nm o hmem hf
    rw [hfl]
    exact List.mem_filter.mpr ⟨hmem, hf⟩
  · intro nm o b _ hkind hin
    rw [hfl] at hin
    have := (List.mem_filter.mp hin).2
    simp only [isfunction, hkind] at this
    cases this

theorem c5_witness :
    expandPass funcWorld (funcWorld.size + 1) [("f", 10), ("c", 11)] =
      some [("f", 10), ("c", 11)] ∧
    [("f", 10)] = ([("f", 10), ("c", 11)] : Scope).filter
      (fun p => isfunction funcWorld p.2) :=
  ⟨by decide,
    (c5_function_marker_filters funcWorld (fun _ => none)
      [("f", 10), ("c", 11)] [("f", 10), ("c", 11)] [("f", 10)]
      [LogMsg.debug, LogMsg.debug] (by decide) (by decide) (by decide)).1⟩

/-- Claim C8: the type-filtered builder is deterministic over an unchanged
scope — two runs with the same type, resolver, and resolved scope produce
namespaces of identical membership and identical binding order.  (Each
Python call rebuilds its pool copy, cache, and output namespace from
scratch, so the embedded builder is a pure function of its inputs.) -/
theorem c8_idempotent_rebuild (w : World) (resolver : String → Option Nat)
    (cls : ClsSpec) (scope : Scope) (ns1 ns2 : IterableNamespace)
    (log1 log2 : List LogMsg)
    (h1 : class_namespace w resolver cls scope = some (ns1, log1))
    (h2 : class_namespace w resolver cls scope = some (ns2, log2)) :
    ns1.map Prod.fst = ns2.map Prod.fst ∧ ns1 = ns2 := by
  rw [h1] at h2
  simp only [Option.some.injEq, Prod.mk.injEq] at h2
  rw [h2.1]
  exact ⟨rfl, rfl⟩

theorem c8_witness :
    class_namespace twoCycleWorld (fun _ => none) (ClsSpec.str "function")
      [("a", 0)] = some ([], [LogMsg.debug]) ∧
    ([] : IterableNamespace).map Prod.fst =
      ([] : IterableNamespace).map Prod.fst ∧
    ([] : IterableNamespace) = [] :=
  ⟨by decide,
    c8_idempotent_rebuild twoCycleWorld (fun _ => none) (ClsSpec.str "function")
      [("a", 0)] [] [] [LogMsg.debug] [LogMsg.debug] (by decide) (by decide)⟩

/-- Claim C7 is false as stated (counterexample): objects `1` and `2` have
distinct identities but compare equal under `__eq__`.  Expanding device `0`
with components `[1, 2]` visits and binds `1`, but skips `2` — the `set`
cache matches it by equality — so the name `n2` never reaches the pool,
although the claim's identity-only guard would have visited both. -/
theorem c7_counterexample :
    (1 : Nat) ≠ 2 ∧ eqPairWorld.eqv 1 2 = true ∧
    expandPass eqPairWorld 4 [("d", 0)] = some [("d", 0), ("n1", 1)] ∧
    lookupScope [("d", 0), ("n1", 1)] "n2" = none := by decide

/-- Claim C7 (amended): a sub-component is skipped iff some already-visited
object is identical to it **or compares equal** to it — Python `set`
membership tests each stored element with `is` and then `__eq__` — so of
two distinct-identity objects that compare equal, only the first is
visited. -/
theorem c7_amended_skip_iff_identity_or_equality (w : World) (fuel obj : Nat)
    (st st' : AccState) (h : accumulate w (fuel + 1) obj st = some st') :
    st' = st ↔ ∃ c ∈ st.cache, c = obj ∨ w.eqv c obj = true := by
  rw [accumulate] at h
  by_cases hhit : cacheHit w st.cache obj
  · rw [if_pos hhit] at h
    cases h
    constructor
    · intro _
      simp only [cacheHit, List.any_eq_true, Bool.or_eq_true, beq_iff_eq]
        at hhit
      exact hhit
    · intro _
      rfl
  · rw [if_neg hhit] at h
    rcases hfold : (w.comps obj).foldlM (fun s sub => accumulate w fuel sub s)
        ⟨st.scope, obj :: st.cache⟩ with _ | st2
    · simp only [hfold] at h
      cases h
    · simp only [hfold] at h
      obtain ⟨_, ⟨u, hu⟩, _⟩ :=
        foldlM_ext_inv _ (fun a s s' hs => accumulate_inv w fuel a s s' hs)
          _ _ _ hfold
      have hcache : st'.cache = st2.cache := by
        by_cases hnm : hasName st2.scope (w.name obj)
        · rw [if_pos hnm] at h
          cases h
          rfl
        · rw [if_neg hnm] at h
          cases h
          rfl
      constructor
      · intro hEq
        exfalso
        have h1 : st.cache = u ++ obj :: st.cache := by
          conv_lhs => rw [← hEq]
          rw [hcache, hu]
        have h2 := congrArg List.length h1
        simp only [List.length_append, List.length_cons] at h2
        omega
      · intro hex
        exfalso
        apply hhit
        obtain ⟨c, hc, hco⟩ := hex
        simp only [cacheHit, List.any_eq_true, Bool.or_eq_true, beq_iff_eq]
        exact ⟨c, hc, hco⟩

theorem c7_amended_witness :
    (⟨[], [1]⟩ : AccState) = ⟨[], [1]⟩ ↔
      ∃ c ∈ ([1] : List Nat), c = 2 ∨ eqPairWorld.eqv c 2 = true :=
  c7_amended_skip_iff_identity_or_equality eqPairWorld 0 2 ⟨[], [1]⟩
    ⟨[], [1]⟩ (by decide)

/-- Claim C4 is false as stated (counterexample): object `5` is classified
via its metadata record (`beamline = "MFX"`), yet the consumed key `mfx` is
stripped from its bound name `mfx_det`, so the leaf attribute is `det`, not
the unstripped original `mfx_det`. -/
theorem c4_counterexample :
    (mdStripWorld.md 5).isSome = true ∧
    metadata_namespace mdStripWorld ["beamline"] [("mfx_det", 5)] =
      some (NSTree.mk [("mfx", Sum.inr (NSTree.mk [("det", Sum.inl 5)]))]) ∧
    (NSTree.mk [("mfx", Sum.inr (NSTree.mk [("det", Sum.inl 5)]))]).getLeaf
      ["mfx"] "mfx_det" = none ∧
    (NSTree.mk [("mfx", Sum.inr (NSTree.mk [("det", Sum.inl 5)]))]).getLeaf
      ["mfx"] "det" = some 5 :=
  ⟨rfl, rfl, rfl, rfl⟩

/-- Claim C4 (amended): prefix stripping is applied at every consumed key
in **both** classification modes, not only in the fallback name-split mode:
an object classified via its metadata record is bound under `stripAll` of
its original name over the consumed keys — each consumed key that is a
literal prefix is stripped together with its separator; the leaf equals the
unstripped original name only when no consumed key is a prefix. -/
theorem c4_amended_strip_in_metadata_mode (w : World) (md0 : String)
    (mdRest : List String) (name : String) (obj : Nat)
    (mdrec : String → Option String) (v0 : String)
    (hmd : w.md obj = some mdrec) (h0 : mdrec md0 = some v0) :
    ∃ t, metadata_namespace w (md0 :: mdRest) [(name, obj)] = some t ∧
      t.getLeaf (consumedPath (mdKeys mdrec (md0 :: mdRest)))
        (stripAll name (mdKeys mdrec (md0 :: mdRest))) = some obj := by
  have hkeys : mdKeys mdrec (md0 :: mdRest) =
      (some v0 :: mdRest.map mdrec).map (fun k => k.map pyLower) := by
    simp [mdKeys, h0]
  obtain ⟨t, ht, hleaf⟩ := insertWalk_empty
    ((some v0 :: mdRest.map mdrec).map (fun k => k.map pyLower)) name obj
  refine ⟨t, ?_, ?_⟩
  · unfold metadata_namespace
    simp only [List.foldlM_cons, List.foldlM_nil, hmd, List.map_cons, h0]
    show (insertWalk (NSTree.mk [])
        ((some v0 :: mdRest.map mdrec).map (fun k => k.map pyLower)) name obj
      >>= fun s => pure s) = some t
    rw [ht]
    rfl
  · rw [hkeys]
    exact hleaf

theorem c4_amended_witness :
    mdStripWorld.md 5 = some mfxRec ∧ mfxRec "beamline" = some "MFX" ∧
    ∃ t, metadata_namespace mdStripWorld ["beamline"] [("mfx_det", 5)] =
        some t ∧
      t.getLeaf (consumedPath (mdKeys mfxRec ["beamline"]))
        (stripAll "mfx_det" (mdKeys mfxRec ["beamline"])) = some 5 :=
  ⟨rfl, rfl,
    c4_amended_strip_in_metadata_mode mdStripWorld "beamline" [] "mfx_det" 5
      mfxRec "MFX" rfl rfl⟩

/-- Claim C6: in fallback name-split mode, an object bound as `tst_det_1`
with no metadata record and a fields list of length 2 is placed along the
key path `["tst", "det"]` and bound there under leaf name `1` — the prefix
`tst_det` (with separators) stripped from the original name. -/
theorem c6_fallback_name_split (w : World) (f1 f2 : String) (obj : Nat)
    (hmd : w.md obj = none) :
    metadata_namespace w [f1, f2] [("tst_det_1", obj)] =
      some (NSTree.mk [("tst", Sum.inr (NSTree.mk [("det",
        Sum.inr (NSTree.mk [("1", Sum.inl obj)]))]))]) ∧
    (NSTree.mk [("tst", Sum.inr (NSTree.mk [("det",
        Sum.inr (NSTree.mk [("1", Sum.inl obj)]))]))]).getLeaf
      ["tst", "det"] "1" = some obj := by
  constructor
  · unfold metadata_namespace
    simp only [List.foldlM_cons, List.foldlM_nil, hmd]
    rfl
  · rfl

theorem c6_witness :
    mdStripWorld.md 7 = none ∧
    metadata_namespace mdStripWorld ["b1", "b2"] [("tst_det_1", 7)] =
      some (NSTree.mk [("tst", Sum.inr (NSTree.mk [("det",
        Sum.inr (NSTree.mk [("1", Sum.inl 7)]))]))]) :=
  ⟨rfl, (c6_fallback_name_split mdStripWorld "b1" "b2" 7 rfl).1⟩

/-- Claim C9: a class-path string without a dot is handed to `eval` and
whatever value the evaluation yields — type or not (`α` is arbitrary) — is
returned unchanged; the dotted-path lookup branch runs exactly when the
string contains a dot. -/
theorem c9_eval_branch {μ α : Type} (evalStr : String → α)
    (importMod : String → μ) (getAttr : μ → String → α)
    (class_path : String) :
    (pyContains class_path '.' = false →
      find_class evalStr importMod getAttr class_path = evalStr class_path) ∧
    (pyContains class_path '.' = true →
      find_class evalStr importMod getAttr class_path =
        find_object importMod getAttr class_path) := by
  constructor <;> intro h <;> simp [find_class, h]

theorem c9_witness :
    pyContains "int" '.' = false ∧
    find_class (fun _ => (42 : Nat)) (fun _ => (0 : Nat)) (fun _ _ => 7)
      "int" = 42 ∧
    pyContains "a.b" '.' = true ∧
    find_class (fun _ => (42 : Nat)) (fun _ => (0 : Nat)) (fun _ _ => 7)
      "a.b" = find_object (fun _ => (0 : Nat)) (fun _ _ => 7) "a.b" :=
  ⟨by decide, (c9_eval_branch _ _ _ "int").1 (by decide), by decide,
    (c9_eval_branch _ _ _ "a.b").2 (by decide)⟩

theorem dropWhile_head?_false {α : Type} (p : α → Bool) :
    ∀ (l : List α) (c : α), (l.dropWhile p).head? = some c → p c = false := by
  intro l
  induction l with
  | nil => intro c h; simp [List.dropWhile] at h
  | cons a l ih =>
    intro c h
    rw [List.dropWhile_cons] at h
    cases hpa : p a with
    | true =>
      rw [if_pos hpa] at h
      exact ih c h
    | false =>
      rw [if_neg (by simp [hpa])] at h
      simp only [List.head?_cons, Option.some.injEq] at h
      rw [← h]
      exact hpa

theorem dropWhile_getLast?_mem {α : Type} (p : α → Bool) :
    ∀ (l : List α) (c : α), (l.dropWhile p).getLast? = some c →
      l.getLast? = some c := by
  intro l
  induction l with
  | nil => intro c h; simp [List.dropWhile] at h
  | cons a l ih =>
    intro c h
    rw [List.dropWhile_cons] at h
    cases hpa : p a with
    | false =>
      rw [if_neg (by simp [hpa])] at h
      exact h
    | true =>
      rw [if_pos hpa] at h
      have hl := ih c h
      cases l with
      | nil => simp at hl
      | cons b l' =>
        rw [List.getLast?_cons_cons]
        exact hl

/-- Claim C10: the filename step `module_name.strip('.py')` removes every
leading and trailing character drawn from the set {'.', 'p', 'y'}, not just
a literal `.py` extension: `numpy` becomes `num` and `happy.py` becomes
`ha`, and in general the result neither starts nor ends with a character of
the set. -/
theorem c10_strip_is_char_set :
    stripModuleName "numpy" = "num" ∧ stripModuleName "happy.py" = "ha" ∧
    ∀ (s : String) (c : Char),
      ((stripModuleName s).toList.head? = some c → c ∉ ['.', 'p', 'y']) ∧
      ((stripModuleName s).toList.getLast? = some c →
        c ∉ ['.', 'p', 'y']) := by
  refine ⟨by decide, by decide, ?_⟩
  intro s c
  constructor
  · intro hh hc
    have hfalse := dropWhile_head?_false _ _ c hh
    rcases (by simpa using hc : c = '.' ∨ c = 'p' ∨ c = 'y') with rfl | rfl | rfl <;>
      exact absurd hfalse (by decide)
  · intro hl hc
    have h1 := dropWhile_getLast?_mem _ _ c hl
    rw [List.getLast?_reverse] at h1
    have hfalse := dropWhile_head?_false _ _ c h1
    rcases (by simpa using hc : c = '.' ∨ c = 'p' ∨ c = 'y') with rfl | rfl | rfl <;>
      exact absurd hfalse (by decide)

theorem c10_witness :
    (stripModuleName "numpy").toList.head? = some 'n' ∧
    'n' ∉ ['.', 'p', 'y'] :=
  ⟨by decide, (c10_strip_is_char_set.2.2 "numpy" 'n').1 (by decide)⟩

end HutchPython
